import Mathlib

/-!
Verification of the segmented archive retrieval and extraction engine of
bluemap-action (`internal/extractor/extractor.go`, plus the configuration
validation in `internal/config`).

Go strings are modelled as `List Char`; Go `int64` values as `Int` (every
arithmetic operation used by the modelled code stays far below 2^63, and the
division in the chunk planner only ever sees non-negative operands, where Go's
truncated division and Lean's integer division agree).  Filesystem and network
effects are modelled by explicit traces and abstract response values.
-/

namespace Extractor

/-- Character-list model of a Go string. -/
abbrev Str := List Char

/-! ## parseContentRange (extractor.go lines 235-252) -/

/-- Value of a decimal digit character, or `none` for a non-digit.  Models the
per-character check inside Go `strconv.ParseUint` for base 10. -/
def digitVal (c : Char) : Option Nat :=
  if '0' ≤ c ∧ c ≤ '9' then some (c.toNat - '0'.toNat) else none

/-- Accumulating decimal parse of a digit string, `none` on a non-digit. -/
def digitsValAux : Nat → Str → Option Nat
  | acc, [] => some acc
  | acc, c :: rest =>
    match digitVal c with
    | none => none
    | some d => digitsValAux (acc * 10 + d) rest

/-- Decimal value of a non-empty all-digit string, `none` otherwise. -/
def digitsVal : Str → Option Nat
  | [] => none
  | s => digitsValAux 0 s

/-- Model of Go `strconv.ParseInt(s, 10, 64)`: an optional sign followed by at
least one decimal digit, rejected when the value overflows a signed 64-bit
integer (Go returns a non-nil error in that case). -/
def parseInt64 (s : Str) : Option Int :=
  match s with
  | '+' :: rest =>
    (digitsVal rest).bind (fun v => if v ≤ 2 ^ 63 - 1 then some (v : Int) else none)
  | '-' :: rest =>
    (digitsVal rest).bind (fun v => if v ≤ 2 ^ 63 then some (-(v : Int)) else none)
  | _ =>
    (digitsVal s).bind (fun v => if v ≤ 2 ^ 63 - 1 then some (v : Int) else none)

/-- Suffix of `s` strictly after the last `'/'`, or `none` when `s` contains no
`'/'`.  Models `strings.LastIndex(header, "/")` followed by
`header[slashIdx+1:]`. -/
def afterLastSlash : Str → Option Str
  | [] => none
  | c :: rest =>
    match afterLastSlash rest with
    | some t => some t
    | none => if c = '/' then some rest else none

/-- Model of `parseContentRange` (extractor.go lines 235-252): extract the
total size from a `Content-Range` header value of the expected shape
`bytes START-END/TOTAL`; `(0, false)` when the header is empty, has no slash,
ends in a slash, reports `*`, or the total does not parse as an `int64`. -/
def parseContentRange (header : Str) : Int × Bool :=
  if header = [] then (0, false)
  else
    match afterLastSlash header with
    | none => (0, false)
    | some totalStr =>
      if totalStr = [] then (0, false)
      else if totalStr = ['*'] then (0, false)
      else
        match parseInt64 totalStr with
        | none => (0, false)
        | some total => (total, true)

/-! ## Connection scaling and strategy selection (extractor.go lines 19-132) -/

/-- Model of the constant `minParallelSize = 64 << 20`. -/
def minParallelSize : Int := 64 * 2 ^ 20

/-- Model of `connectionCount` (extractor.go lines 34-45): worker count scaled
by content length. -/
def connectionCount (contentLength : Int) : Int :=
  if contentLength < 256 * 2 ^ 20 then 2
  else if contentLength < 2 ^ 30 then 4
  else if contentLength < 4 * 2 ^ 30 then 8
  else 12

/-- Abstract outcome of the probe request issued by `probeDownload`: the
request could not even be built, the transport failed, or the server replied
with a status, a `Content-Range` header value and a declared content length
(`resp.ContentLength`, `-1` when absent). -/
inductive ProbeResponse where
  | requestError
  | transportError
  | response (status : Nat) (contentRange : Str) (contentLength : Int)

/-- Return value of `probeDownload`: `(contentLength, rangeSupported, err)`. -/
structure ProbeResult where
  contentLength : Int
  rangeSupported : Bool
  err : Option String
  deriving DecidableEq

/-- Model of `probeDownload` (extractor.go lines 191-229): every failure
degrades to `(0, false, nil)`; a `206` reply yields the `Content-Range` total
when it parses positive; a `200` reply yields the declared content length when
positive, with range unsupported. -/
def probeDownload : ProbeResponse → ProbeResult
  | .requestError => ⟨0, false, none⟩
  | .transportError => ⟨0, false, none⟩
  | .response status contentRange contentLength =>
    if status = 206 then
      let cl := (parseContentRange contentRange).1
      let ok := (parseContentRange contentRange).2
      if ok = false ∨ cl ≤ 0 then ⟨0, false, none⟩
      else ⟨cl, true, none⟩
    else if status = 200 then
      if contentLength ≤ 0 then ⟨0, false, none⟩
      else ⟨contentLength, false, none⟩
    else ⟨0, false, none⟩

/-- Strategy chosen by the selector. -/
inductive DownloadChoice where
  | parallel (numWorkers : Int)
  | single
  deriving DecidableEq

/-- Log line printed by `downloadAutoExtract` when announcing its choice; the
constructors correspond one-to-one to the four `fmt.Print` calls on lines
89-105 of extractor.go:
`parallelChosen` to "parallel download (%d connections, %s)",
`singleRangeUnsupportedKnownSize` to
"single-connection download (%s, server does not support Range requests)",
`singleRangeUnsupportedUnknownSize` to
"single-connection download (size unknown, server does not support Range requests)",
`singleBelowThreshold` to
"single-connection download (%s, below %s parallel threshold)". -/
inductive AutoLog where
  | parallelChosen
  | singleRangeUnsupportedKnownSize
  | singleRangeUnsupportedUnknownSize
  | singleBelowThreshold
  deriving DecidableEq

/-- Decision logic of `downloadAutoExtract` (extractor.go lines 84-107) after
a successful probe: parallel when range is supported and the size is at least
`minParallelSize`, with the override applied when positive; otherwise
single-stream, with the reason logged. -/
def downloadAutoExtract (contentLength : Int) (rangeOK : Bool) (connOverride : Int) :
    DownloadChoice × AutoLog :=
  if rangeOK = true ∧ minParallelSize ≤ contentLength then
    let numWorkers := connectionCount contentLength
    let numWorkers := if 0 < connOverride then connOverride else numWorkers
    (.parallel numWorkers, .parallelChosen)
  else if rangeOK = false then
    if 0 < contentLength then (.single, .singleRangeUnsupportedKnownSize)
    else (.single, .singleRangeUnsupportedUnknownSize)
  else (.single, .singleBelowThreshold)

/-- Outcome of `downloadParallelExtract` (extractor.go lines 112-132) after a
successful probe: a descriptive error when range is unsupported or no positive
content length was reported, otherwise the parallel download proceeds with the
chosen worker count. -/
inductive ForcedParallelOutcome where
  | errorRangeUnsupported
  | errorNoContentLength
  | proceed (numWorkers : Int) (contentLength : Int)
  deriving DecidableEq

/-- Decision logic of `downloadParallelExtract` (extractor.go lines 112-132). -/
def downloadParallelExtract (contentLength : Int) (rangeOK : Bool) (connOverride : Int) :
    ForcedParallelOutcome :=
  if rangeOK = false then .errorRangeUnsupported
  else if contentLength ≤ 0 then .errorNoContentLength
  else
    let numWorkers := connectionCount contentLength
    let numWorkers := if 0 < connOverride then connOverride else numWorkers
    .proceed numWorkers contentLength

/-- Validation applied by `config.Load` (internal/config, lines 311-315 of the
config source): `download_connections` outside `[0, 32]` is rejected with an
error before any download starts. -/
def downloadConnectionsValid (c : Int) : Bool :=
  !(c < 0 ∨ 32 < c)

/-! ## Chunk planning in downloadParallel (extractor.go lines 264-299) -/

/-- Model of `chunkSize := contentLength / int64(numWorkers)`.  Both operands
are positive at the call site, so Go's truncated division agrees with Lean's
integer division here. -/
def chunkSize (contentLength numWorkers : Int) : Int :=
  contentLength / numWorkers

/-- Start offset of worker `i`: `start := int64(i) * chunkSize`. -/
def chunkStart (contentLength numWorkers i : Int) : Int :=
  i * chunkSize contentLength numWorkers

/-- Inclusive end offset of worker `i`: `end := start + chunkSize - 1`, with
the last worker absorbing the remainder (`end = contentLength - 1`). -/
def chunkEnd (contentLength numWorkers i : Int) : Int :=
  if i = numWorkers - 1 then contentLength - 1
  else chunkStart contentLength numWorkers i + chunkSize contentLength numWorkers - 1

/-- Worker `i` owns byte offset `b`. -/
def inChunk (contentLength numWorkers i b : Int) : Prop :=
  chunkStart contentLength numWorkers i ≤ b ∧ b ≤ chunkEnd contentLength numWorkers i

instance (S N i b : Int) : Decidable (inChunk S N i b) := by
  unfold inChunk; infer_instance

/-! ## writeFile size cap (extractor.go lines 443-461) -/

/-- Model of the constant `limit = 10 << 30` in `writeFile`. -/
def fileSizeLimit : Nat := 10 * 2 ^ 30

/-- Model of `writeFile` (extractor.go lines 443-461) applied to an entry with
`contentLen` bytes of content: `io.Copy` through `io.LimitReader(r, limit+1)`
copies `n = min contentLen (limit+1)` bytes, and the function fails with the
size-limit error exactly when `n > limit`.  On success it returns the number
of bytes copied. -/
def writeFile (contentLen : Nat) : Except String Nat :=
  if fileSizeLimit < min contentLen (fileSizeLimit + 1) then
    .error "file exceeds maximum allowed size"
  else .ok (min contentLen (fileSizeLimit + 1))

/-! ## Single-stream download cap (extractor.go lines 167-182) -/

/-- Model of the constant `limit = 10 << 30` in `downloadStreamExtract`. -/
def streamSizeLimit : Nat := 10 * 2 ^ 30

/-- Model of `io.LimitReader(r, n)`: the wrapped reader serves at most the
first `n` elements of the underlying stream. -/
def limitReader (n : Nat) (body : List α) : List α :=
  body.take n

/-- Outcome of `downloadStreamExtract` before extraction: a status error, or
the archive stream that is handed to `extractWorlds`. -/
inductive StreamOutcome (α : Type) where
  | statusError (status : Nat)
  | extractFrom (archive : List α)
  deriving DecidableEq

/-- Model of `downloadStreamExtract` (extractor.go lines 167-182): reject any
non-200 status, otherwise feed the response body through
`io.LimitReader(resp.Body, 10 << 30)` into the extractor. -/
def downloadStreamExtract (status : Nat) (body : List α) : StreamOutcome α :=
  if status ≠ 200 then .statusError status
  else .extractFrom (limitReader streamSizeLimit body)

/-! ## Lexical path handling (Go `path/filepath`, Unix rules)

The containment check on extractor.go line 396 is built from
`filepath.Join`, `filepath.Clean`, `filepath.Dir` and `strings.HasPrefix`.
The three path functions are modelled here by their documented lexical
algorithm: split on the separator, process `.` , `..` and empty elements with
a backtracking stack, and re-join. -/

/-- Split a string on `'/'`, keeping empty parts, as
`strings.Split(s, "/")` does. -/
def splitSlash : Str → List Str
  | [] => [[]]
  | c :: rest =>
    if c = '/' then [] :: splitSlash rest
    else
      match splitSlash rest with
      | [] => [[c]]
      | s :: ss => (c :: s) :: ss

/-- Join parts with `'/'`, as `strings.Join(parts, "/")` does. -/
def joinSlash : List Str → Str
  | [] => []
  | [s] => s
  | s :: ss => s ++ '/' :: joinSlash ss

/-- The `..` path element. -/
def dotdot : Str := ['.', '.']

/-- Element processing loop of Go `path.Clean`: drop empty and `.` elements,
let `..` pop the last real element off the stack — except that at the root it
is dropped, and in a relative path with nothing left to pop it is kept — and
push every other element.  The stack holds the output elements in reverse. -/
def cleanAux (rooted : Bool) : List Str → List Str → List Str
  | stack, [] => stack.reverse
  | stack, c :: rest =>
    if c = [] ∨ c = ['.'] then cleanAux rooted stack rest
    else if c = dotdot then
      match stack with
      | [] =>
        if rooted then cleanAux rooted [] rest
        else cleanAux rooted [dotdot] rest
      | top :: stack2 =>
        if top = dotdot then cleanAux rooted (dotdot :: top :: stack2) rest
        else cleanAux rooted stack2 rest
    else cleanAux rooted (c :: stack) rest

/-- Final rendering step of Go `path.Clean`: re-join the processed elements,
restoring the leading separator of a rooted path and turning an empty result
into `/` or `.`. -/
def renderPath (rooted : Bool) (comps : List Str) : Str :=
  if rooted then
    if comps = [] then ['/'] else '/' :: joinSlash comps
  else
    if comps = [] then ['.'] else joinSlash comps

/-- Model of Go `filepath.Clean` on Unix: `Clean("")` is `.`; otherwise the
element-wise cleaning of the split path, rendered with the original
rootedness. -/
def cleanPath (s : Str) : Str :=
  if s = [] then ['.']
  else
    let rooted : Bool := s.head? = some '/'
    renderPath rooted (cleanAux rooted [] (splitSlash s))

/-- Model of Go `filepath.Join(a, b)` on Unix: empty elements are skipped,
the rest are joined with a separator and cleaned; all-empty input yields the
empty string. -/
def filepathJoin (a b : Str) : Str :=
  if a = [] ∧ b = [] then []
  else if a = [] then cleanPath b
  else cleanPath (a ++ '/' :: b)

/-- The part of `p` up to and including its last `'/'`, or `[]` when `p` has
no `'/'`; this is `path[:i+1]` in Go `filepath.Dir`. -/
def dropAfterLastSlash : Str → Str
  | [] => []
  | c :: rest =>
    let r := dropAfterLastSlash rest
    if r = [] then (if c = '/' then ['/'] else [])
    else c :: r

/-- Model of Go `filepath.Dir` on Unix: everything up to the last separator,
cleaned (`Clean("")` turning a separator-free path into `.`). -/
def dirPath (p : Str) : Str :=
  cleanPath (dropAfterLastSlash p)

/-! ## extractWorlds (extractor.go lines 361-441) -/

/-- Model of `strings.TrimPrefix(entryPath, "./")`. -/
def trimDotSlash (s : Str) : Str :=
  if ['.', '/'].isPrefixOf s then s.drop 2 else s

/-- Model of `matchWorld` (extractor.go lines 430-441): the first configured
world name that the normalized entry path equals, equals with a trailing
slash, or is nested under; `[]` when none matches.  (Go iterates a
`map[string]bool` in unspecified order; this model fixes the caller's list
order, which the verified properties do not depend on.) -/
def matchWorld (entryPath : Str) (worlds : List Str) : Str :=
  let cleaned := trimDotSlash entryPath
  match worlds.find? (fun w =>
      cleaned == w || cleaned == w ++ ['/'] || (w ++ ['/']).isPrefixOf cleaned) with
  | some w => w
  | none => []

/-- Tar entry type flags distinguished by the extraction loop. -/
inductive TypeFlag where
  | dir
  | reg
  | other
  deriving DecidableEq

/-- A tar entry as seen by the walk: its path, type flag and content size. -/
structure TarEntry where
  name : Str
  typeflag : TypeFlag
  size : Nat
  deriving DecidableEq

/-- A filesystem write performed by the extraction loop: `os.MkdirAll` on a
path, or a file written with a number of content bytes. -/
inductive WriteAction where
  | mkdirAll (path : Str)
  | fileWrite (path : Str) (bytes : Nat)
  deriving DecidableEq

/-- Path named by a write action. -/
def WriteAction.path : WriteAction → Str
  | .mkdirAll p => p
  | .fileWrite p _ => p

/-- State threaded through the extraction walk: the per-world tally
(`extracted` map) and the trace of filesystem writes performed so far. -/
structure ExtractState where
  tally : Str → Nat
  trace : List WriteAction

/-- Initial walk state: empty tally, no writes. -/
def initState : ExtractState := ⟨fun _ => 0, []⟩

/-- The containment check of extractor.go line 396:
`strings.HasPrefix(filepath.Clean(targetPath), filepath.Clean(outputDir)+"/")`. -/
def insideRoot (outputDir targetPath : Str) : Bool :=
  (cleanPath outputDir ++ ['/']).isPrefixOf (cleanPath targetPath)

/-- One iteration of the entry loop of `extractWorlds` (extractor.go lines
378-414): skip unmatched entries, skip entries whose joined path escapes the
destination root, create matched directories, and write matched regular files
(parents first), bumping the tally; an oversized regular file aborts the walk
after the parent directories and the capped copy have hit the disk. -/
def extractStep (outputDir : Str) (worlds : List Str) (st : ExtractState) (e : TarEntry) :
    ExtractState × Option String :=
  let matchedWorld := matchWorld e.name worlds
  if matchedWorld = [] then (st, none)
  else
    let targetPath := filepathJoin outputDir e.name
    if insideRoot outputDir targetPath = false then (st, none)
    else
      match e.typeflag with
      | .dir => ({ st with trace := st.trace ++ [.mkdirAll targetPath] }, none)
      | .reg =>
        match writeFile e.size with
        | .ok n =>
          ({ tally := fun w => if w = matchedWorld then st.tally w + 1 else st.tally w,
             trace := st.trace ++ [.mkdirAll (dirPath targetPath), .fileWrite targetPath n] },
           none)
        | .error msg =>
          ({ st with trace := st.trace ++
               [.mkdirAll (dirPath targetPath),
                .fileWrite targetPath (min e.size (fileSizeLimit + 1))] },
           some msg)
      | .other => (st, none)

/-- The entry loop of `extractWorlds`: process entries in stream order until
the list is exhausted or a step fails. -/
def extractLoop (outputDir : Str) (worlds : List Str) :
    ExtractState → List TarEntry → ExtractState × Option String
  | st, [] => (st, none)
  | st, e :: rest =>
    match extractStep outputDir worlds st e with
    | (st2, some msg) => (st2, some msg)
    | (st2, none) => extractLoop outputDir worlds st2 rest

/-- Model of `extractWorlds` (extractor.go lines 361-426) on an archive whose
walk yields `entries` and then either end-of-stream (`walkError = none`) or a
gzip/tar read error.  On a complete walk it returns a nil error together with
the warning list: the configured world names whose tally is zero, in
configuration order (extractor.go lines 417-423). -/
def extractWorlds (outputDir : Str) (worlds : List Str) (entries : List TarEntry)
    (walkError : Option String) : ExtractState × Option String × List Str :=
  match extractLoop outputDir worlds initState entries with
  | (st, some msg) => (st, some msg, [])
  | (st, none) =>
    match walkError with
    | some msg => (st, some msg, [])
    | none => (st, none, worlds.filter (fun w => st.tally w == 0))

/-! ## Theorems -/

/-- C3: in auto mode the selector chooses the parallel path exactly when the
probe reports range support and a known size of at least 64 MiB (the boundary
itself choosing parallel), and each outcome is announced with the log line of
its reason: parallel with `parallelChosen`; range unsupported with a known
positive size, with an unknown size, and a supported range below the
threshold, each with its own single-stream log line. -/
theorem c3_auto_mode_selection (contentLength : Int) (rangeOK : Bool) (connOverride : Int) :
    ((∃ w, (downloadAutoExtract contentLength rangeOK connOverride).1 = .parallel w) ↔
      (rangeOK = true ∧ minParallelSize ≤ contentLength)) ∧
    (rangeOK = true → minParallelSize ≤ contentLength →
      downloadAutoExtract contentLength rangeOK connOverride =
        (.parallel (if 0 < connOverride then connOverride else connectionCount contentLength),
         .parallelChosen)) ∧
    (rangeOK = false → 0 < contentLength →
      downloadAutoExtract contentLength rangeOK connOverride =
        (.single, .singleRangeUnsupportedKnownSize)) ∧
    (rangeOK = false → contentLength ≤ 0 →
      downloadAutoExtract contentLength rangeOK connOverride =
        (.single, .singleRangeUnsupportedUnknownSize)) ∧
    (rangeOK = true → contentLength < minParallelSize →
      downloadAutoExtract contentLength rangeOK connOverride =
        (.single, .singleBelowThreshold)) := by
  unfold downloadAutoExtract
  refine ⟨?_, ?_, ?_, ?_, ?_⟩
  · constructor
    · rintro ⟨w, hw⟩
      by_contra hcon
      rw [if_neg hcon] at hw
      split at hw
      · split at hw <;> simp at hw
      · simp at hw
    · intro h
      rw [if_pos h]
      exact ⟨_, rfl⟩
  · intro h1 h2
    rw [if_pos ⟨h1, h2⟩]
  · intro h1 h2
    rw [if_neg (by simp [h1]), if_pos h1, if_pos h2]
  · intro h1 h2
    rw [if_neg (by simp [h1]), if_pos h1, if_neg (by omega)]
  · intro h1 h2
    rw [if_neg (by rintro ⟨-, h⟩; omega), if_neg (by simp [h1])]

/-- C3 witness: at exactly the 64 MiB boundary with range support the selector
goes parallel, and just below it with range support it goes single-stream. -/
theorem c3_auto_mode_selection_witness :
    downloadAutoExtract minParallelSize true 0 = (.parallel 2, .parallelChosen) ∧
    downloadAutoExtract (minParallelSize - 1) true 0 = (.single, .singleBelowThreshold) := by
  constructor
  · exact (c3_auto_mode_selection minParallelSize true 0).2.1 rfl le_rfl
  · exact (c3_auto_mode_selection (minParallelSize - 1) true 0).2.2.2.2 rfl (by decide)

/-- Helper: a string without a slash has no after-last-slash suffix. -/
theorem afterLastSlash_eq_none {s : Str} (h : '/' ∉ s) : afterLastSlash s = none := by
  induction s with
  | nil => rfl
  | cons c rest ih =>
    simp only [List.mem_cons, not_or] at h
    have hc : ¬(c = '/') := fun he => h.1 he.symm
    simp [afterLastSlash, ih h.2, hc]

/-- Helper: the suffix after the last slash of `a ++ '/' :: t` is `t` whenever
`t` itself is slash-free. -/
theorem afterLastSlash_append {t : Str} (a : Str) (h : '/' ∉ t) :
    afterLastSlash (a ++ '/' :: t) = some t := by
  induction a with
  | nil => simp [afterLastSlash, afterLastSlash_eq_none h]
  | cons c rest ih => simp [afterLastSlash, ih]

/-- C4 counterexample: `"oops/42"` is not a well-formed `bytes X-Y/T`
trailer, yet `parseContentRange` returns `(42, true)` for it rather than the
`(0, false)` the claim requires for malformed trailers — only the part after
the last slash is ever inspected. -/
theorem c4_malformed_trailer_counterexample :
    parseContentRange "oops/42".data = (42, true) ∧
    parseContentRange "oops/42".data ≠ ((0 : Int), false) := by
  exact ⟨by decide, by decide⟩

/-- C4 amended: for every header of the shape `P ++ "/" ++ T` whose total
part `T` is non-empty, slash-free and parses as a decimal `int64` — whether
or not the prefix `P` has the well-formed `bytes X-Y` shape, which is never
validated — `parseContentRange` returns `(T, true)`; and it returns
`(0, false)` exactly in the enumerated failure cases: an empty header, a
header without a slash, a header ending in a slash, a total of `*`, and a
total that does not parse as an `int64`. -/
theorem c4_parse_content_range_amended :
    (∀ (pre t : Str) (v : Int), '/' ∉ t → t ≠ [] → parseInt64 t = some v →
      parseContentRange (pre ++ '/' :: t) = (v, true)) ∧
    parseContentRange [] = (0, false) ∧
    (∀ h : Str, '/' ∉ h → parseContentRange h = (0, false)) ∧
    (∀ a : Str, parseContentRange (a ++ ['/']) = (0, false)) ∧
    (∀ a : Str, parseContentRange (a ++ '/' :: ['*']) = (0, false)) ∧
    (∀ (pre t : Str), '/' ∉ t → t ≠ [] → parseInt64 t = none →
      parseContentRange (pre ++ '/' :: t) = (0, false)) := by
  refine ⟨?_, rfl, ?_, ?_, ?_, ?_⟩
  · intro pre t v ht hne hv
    have hstar : t ≠ ['*'] := fun he => by
      rw [he, show parseInt64 ['*'] = none from rfl] at hv
      exact Option.noConfusion hv
    simp [parseContentRange, afterLastSlash_append pre ht, hne, hstar, hv]
  · intro h hns
    unfold parseContentRange
    split
    · rfl
    · rw [afterLastSlash_eq_none hns]
  · intro a
    simp [parseContentRange, afterLastSlash_append a (by simp : '/' ∉ ([] : Str))]
  · intro a
    simp [parseContentRange, afterLastSlash_append a (by decide : '/' ∉ ['*'])]
  · intro pre t ht hne hv
    by_cases hstar : t = ['*']
    · subst hstar
      simp [parseContentRange, afterLastSlash_append pre (by decide : '/' ∉ ['*'])]
    · simp [parseContentRange, afterLastSlash_append pre ht, hne, hstar, hv]

/-- C4 witness: the well-formed trailer `bytes 0-0/1048576` parses to
`(1048576, true)`, and the no-slash header `nonsense` parses to
`(0, false)`. -/
theorem c4_parse_content_range_amended_witness :
    parseContentRange ("bytes 0-0".data ++ '/' :: "1048576".data) = (1048576, true) ∧
    parseContentRange "nonsense".data = (0, false) :=
  ⟨c4_parse_content_range_amended.1 "bytes 0-0".data "1048576".data 1048576
      (by decide) (by decide) (by decide),
   c4_parse_content_range_amended.2.2.1 "nonsense".data (by decide)⟩

/-- C2: for every positive total size and worker count at least one, the
chunk plan of `downloadParallel` partitions the byte offsets `[0, S)`: every
offset lies in exactly one worker's inclusive range. -/
theorem c2_chunk_plan_partitions (S N b : Int) (hS : 0 < S) (hN : 1 ≤ N)
    (hb0 : 0 ≤ b) (hbS : b < S) :
    ∃! i : Int, (0 ≤ i ∧ i < N) ∧ inChunk S N i b := by
  have hc0 : 0 ≤ S / N := Int.ediv_nonneg (by omega) (by omega)
  have hmem : ∀ i : Int, inChunk S N i b ↔
      (i * (S / N) ≤ b ∧
        (if i = N - 1 then b ≤ S - 1 else b ≤ i * (S / N) + S / N - 1)) := by
    intro i
    unfold inChunk chunkStart chunkEnd chunkSize
    constructor
    · rintro ⟨h1, h2⟩
      refine ⟨h1, ?_⟩
      split at h2 <;> [rw [if_pos (by assumption)]; rw [if_neg (by assumption)]] <;>
        exact h2
    · rintro ⟨h1, h2⟩
      refine ⟨h1, ?_⟩
      split at h2 <;> [rw [if_pos (by assumption)]; rw [if_neg (by assumption)]] <;>
        exact h2
  have huniq : ∀ i j : Int, ((0 ≤ i ∧ i < N) ∧ inChunk S N i b) →
      ((0 ≤ j ∧ j < N) ∧ inChunk S N j b) → i < j → False := by
    intro i j ⟨⟨hi0, hiN⟩, hi⟩ ⟨⟨hj0, hjN⟩, hj⟩ hij
    rw [hmem i] at hi
    rw [hmem j] at hj
    have hiNe : i ≠ N - 1 := by omega
    rw [if_neg hiNe] at hi
    have h1 : b ≤ i * (S / N) + S / N - 1 := hi.2
    have h2 : j * (S / N) ≤ b := hj.1
    have h3 : (i + 1) * (S / N) ≤ j * (S / N) :=
      mul_le_mul_of_nonneg_right (by omega) hc0
    nlinarith [hi.1]
  have hexists : ∃ i : Int, (0 ≤ i ∧ i < N) ∧ inChunk S N i b := by
    rcases le_or_lt ((N - 1) * (S / N)) b with hcase | hcase
    · refine ⟨N - 1, ⟨by omega, by omega⟩, ?_⟩
      rw [hmem (N - 1), if_pos rfl]
      exact ⟨hcase, by omega⟩
    · have hcpos : 0 < S / N := by
        rcases lt_or_eq_of_le hc0 with h | h
        · exact h
        · rw [← h, mul_zero] at hcase
          omega
      refine ⟨b / (S / N), ⟨Int.ediv_nonneg hb0 hc0, ?_⟩, ?_⟩
      · have : b / (S / N) < N - 1 := (Int.ediv_lt_iff_lt_mul hcpos).mpr hcase
        omega
      · have hqlt : b / (S / N) < N - 1 := (Int.ediv_lt_iff_lt_mul hcpos).mpr hcase
        rw [hmem (b / (S / N)), if_neg (by omega)]
        have hlow : b / (S / N) * (S / N) ≤ b := Int.ediv_mul_le b (by omega)
        have hhigh : b < (b / (S / N) + 1) * (S / N) :=
          Int.lt_ediv_add_one_mul_self b hcpos
        have hexp : (b / (S / N) + 1) * (S / N) =
            b / (S / N) * (S / N) + S / N := by ring
        rw [hexp] at hhigh
        exact ⟨hlow, by omega⟩
  obtain ⟨i0, hi0⟩ := hexists
  refine ⟨i0, hi0, ?_⟩
  intro j hj
  rcases lt_trichotomy j i0 with h | h | h
  · exact absurd (huniq j i0 hj hi0 h) (fun f => f)
  · exact h
  · exact absurd (huniq i0 j hi0 hj h) (fun f => f)

/-- C2 witness: with a total of 10 bytes and 3 workers the plan is
`[0,2] [3,5] [6,9]`, and offset 7 lies in exactly one chunk. -/
theorem c2_chunk_plan_partitions_witness :
    ∃! i : Int, (0 ≤ i ∧ i < 3) ∧ inChunk 10 3 i 7 :=
  c2_chunk_plan_partitions 10 3 7 (by decide) (by decide) (by decide) (by decide)

/-- C5: `writeFile` succeeds on an entry of exactly 10 GiB, fails with the
explicit size-limit error on one of 10 GiB plus one byte, and whenever it
reports success the number of bytes it copied equals the entry's content
length (no silent truncation). -/
theorem c5_write_file_size_cap :
    writeFile fileSizeLimit = .ok fileSizeLimit ∧
    writeFile (fileSizeLimit + 1) = .error "file exceeds maximum allowed size" ∧
    ∀ m n, writeFile m = .ok n → n = m := by
  refine ⟨by rfl, by rfl, ?_⟩
  intro m n h
  unfold writeFile at h
  split at h
  · exact absurd h (by simp)
  · simp only [Except.ok.injEq] at h
    omega

/-- C5 witness: the all-quantified no-truncation conjunct applied at a
concrete success of `writeFile`. -/
theorem c5_write_file_size_cap_witness :
    writeFile 7 = .ok 7 ∧ (7 : Nat) = 7 :=
  ⟨by rfl, c5_write_file_size_cap.2.2 7 7 (by rfl)⟩

/-- C6 counterexample: at the cited code the override is applied as-is — with
a connections override of 100, forced-parallel mode on a 1 GiB file uses 100
workers, which lies outside 1..32; the auto path behaves the same. -/
theorem c6_override_not_clamped_counterexample :
    downloadParallelExtract (2 ^ 30) true 100 = .proceed 100 (2 ^ 30) ∧
    (downloadAutoExtract (2 ^ 30) true 100).1 = .parallel 100 ∧
    ¬(1 ≤ (100 : Int) ∧ (100 : Int) ≤ 32) := by
  refine ⟨by decide, by decide, by decide⟩

/-- C6 amended: the extractor itself applies any positive override verbatim;
the 1..32 bound is enforced upstream by `config.Load`, which rejects
`download_connections` outside `[0, 32]`, so every override that passes
configuration validation and is positive yields a worker count equal to the
override and within 1..32, on both the auto and the forced-parallel path. -/
theorem c6_validated_override_in_bounds (c contentLength : Int) (rangeOK : Bool)
    (hvalid : downloadConnectionsValid c = true) (hpos : 0 < c) :
    (∀ w lg, downloadAutoExtract contentLength rangeOK c = (.parallel w, lg) →
      w = c ∧ 1 ≤ w ∧ w ≤ 32) ∧
    (∀ w cl, downloadParallelExtract contentLength rangeOK c = .proceed w cl →
      w = c ∧ 1 ≤ w ∧ w ≤ 32) := by
  have hc : 1 ≤ c ∧ c ≤ 32 := by
    unfold downloadConnectionsValid at hvalid
    simp only [Bool.not_eq_true', decide_eq_false_iff_not, not_or, not_lt] at hvalid
    omega
  constructor
  · intro w lg h
    unfold downloadAutoExtract at h
    split at h
    · simp only [if_pos hpos, Prod.mk.injEq, DownloadChoice.parallel.injEq] at h
      exact ⟨h.1.symm, h.1 ▸ hc.1, h.1 ▸ hc.2⟩
    · split at h <;> [split at h; skip] <;> simp at h
  · intro w cl h
    unfold downloadParallelExtract at h
    split at h
    · simp at h
    · split at h
      · simp at h
      · simp only [if_pos hpos, ForcedParallelOutcome.proceed.injEq] at h
        exact ⟨h.1.symm, h.1 ▸ hc.1, h.1 ▸ hc.2⟩

/-- C6 witness: a validated override of 8 on a 1 GiB forced-parallel download
is used verbatim and lies in 1..32. -/
theorem c6_validated_override_in_bounds_witness :
    (8 : Int) = 8 ∧ 1 ≤ (8 : Int) ∧ (8 : Int) ≤ 32 :=
  (c6_validated_override_in_bounds 8 (2 ^ 30) true (by decide) (by decide)).2
    8 (2 ^ 30) (by decide)

/-- C7: forced-parallel mode fails immediately with the range-unsupported
error when the probe reports no range support, fails immediately with the
content-length error when range is supported but no positive size is known,
and proceeds to the parallel download exactly when both range support and a
positive size were reported. -/
theorem c7_forced_parallel_preconditions (contentLength : Int) (rangeOK : Bool)
    (connOverride : Int) :
    (rangeOK = false →
      downloadParallelExtract contentLength rangeOK connOverride = .errorRangeUnsupported) ∧
    (rangeOK = true → contentLength ≤ 0 →
      downloadParallelExtract contentLength rangeOK connOverride = .errorNoContentLength) ∧
    (rangeOK = true → 0 < contentLength →
      downloadParallelExtract contentLength rangeOK connOverride =
        .proceed (if 0 < connOverride then connOverride else connectionCount contentLength)
          contentLength) ∧
    ((∃ w cl, downloadParallelExtract contentLength rangeOK connOverride = .proceed w cl) ↔
      (rangeOK = true ∧ 0 < contentLength)) := by
  unfold downloadParallelExtract
  refine ⟨?_, ?_, ?_, ?_⟩
  · intro h; rw [if_pos h]
  · intro h1 h2; rw [if_neg (by simp [h1]), if_pos h2]
  · intro h1 h2; rw [if_neg (by simp [h1]), if_neg (by omega)]
  · constructor
    · rintro ⟨w, cl, h⟩
      split at h
      · simp at h
      · split at h
        · simp at h
        · rename_i h1 h2
          exact ⟨by revert h1; cases rangeOK <;> simp, by omega⟩
    · rintro ⟨h1, h2⟩
      rw [if_neg (by simp [h1]), if_neg (by omega)]
      exact ⟨_, _, rfl⟩

/-- C7 witness: with range support and a 1 GiB size, forced-parallel proceeds
with the scaled worker count; without range support it fails fast. -/
theorem c7_forced_parallel_preconditions_witness :
    downloadParallelExtract (2 ^ 30) true 0 = .proceed 8 (2 ^ 30) ∧
    downloadParallelExtract (2 ^ 30) false 0 = .errorRangeUnsupported :=
  ⟨by have := (c7_forced_parallel_preconditions (2 ^ 30) true 0).2.2.1 rfl (by decide)
      rw [this]; decide,
   (c7_forced_parallel_preconditions (2 ^ 30) false 0).1 rfl⟩

/-- C8: `probeDownload` never returns a non-nil error, and every failure mode
— request construction failure, transport failure, an unexpected status, a
206 whose `Content-Range` total is missing, malformed or non-positive, and a
200 without a positive content length — degrades to size unknown and range
unsupported. -/
theorem c8_probe_never_errors :
    (∀ pr, (probeDownload pr).err = none) ∧
    probeDownload .requestError = ⟨0, false, none⟩ ∧
    probeDownload .transportError = ⟨0, false, none⟩ ∧
    (∀ s cr cl, s ≠ 206 → s ≠ 200 →
      probeDownload (.response s cr cl) = ⟨0, false, none⟩) ∧
    (∀ cr cl, ((parseContentRange cr).2 = false ∨ (parseContentRange cr).1 ≤ 0) →
      probeDownload (.response 206 cr cl) = ⟨0, false, none⟩) ∧
    (∀ cr cl, cl ≤ 0 → probeDownload (.response 200 cr cl) = ⟨0, false, none⟩) := by
  refine ⟨?_, rfl, rfl, ?_, ?_, ?_⟩
  · intro pr
    cases pr with
    | requestError => rfl
    | transportError => rfl
    | response s cr cl =>
      simp only [probeDownload]
      split
      · split <;> rfl
      · split
        · split <;> rfl
        · rfl
  · intro s cr cl h1 h2
    simp only [probeDownload]
    rw [if_neg h1, if_neg h2]
  · intro cr cl h
    simp only [probeDownload]
    rw [if_pos trivial, if_pos h]
  · intro cr cl h
    simp only [probeDownload]
    rw [if_pos trivial, if_pos h, if_neg (by decide)]

/-- C8 witness: a 206 probe reply whose `Content-Range` total is `*` degrades
to `(0, false, nil)`. -/
theorem c8_probe_never_errors_witness :
    probeDownload (.response 206 "bytes 0-0/*".data 0) = ⟨0, false, none⟩ :=
  c8_probe_never_errors.2.2.2.2.1 "bytes 0-0/*".data 0 (by decide)

/-- C10: whatever archive stream `downloadStreamExtract` hands to the
extractor is the response body truncated at 10 GiB: it never serves more than
`10 * 2 ^ 30` bytes of the body in total, and a body longer than the cap is
cut off at exactly the cap instead of being fully read. -/
theorem c10_stream_capped_at_ten_gib (status : Nat) (body : List α) (archive : List α)
    (h : downloadStreamExtract status body = .extractFrom archive) :
    archive.length ≤ streamSizeLimit ∧
    archive = body.take streamSizeLimit ∧
    (streamSizeLimit < body.length →
      archive.length = streamSizeLimit ∧ archive.length < body.length) := by
  unfold downloadStreamExtract at h
  split at h
  · exact absurd h (by simp)
  · simp only [StreamOutcome.extractFrom.injEq] at h
    subst h
    refine ⟨?_, rfl, ?_⟩
    · unfold limitReader
      simp only [List.length_take]
      omega
    · intro hlong
      unfold limitReader
      simp only [List.length_take]
      omega

/-- C10 witness: a 200 response with a short body is passed through whole,
and its length is below the cap. -/
theorem c10_stream_capped_at_ten_gib_witness :
    ([0, 1, 2] : List Nat).length ≤ streamSizeLimit ∧
    ([0, 1, 2] : List Nat) = ([0, 1, 2] : List Nat).take streamSizeLimit ∧
    (streamSizeLimit < ([0, 1, 2] : List Nat).length →
      ([0, 1, 2] : List Nat).length = streamSizeLimit ∧
      ([0, 1, 2] : List Nat).length < ([0, 1, 2] : List Nat).length) :=
  c10_stream_capped_at_ten_gib 200 [0, 1, 2] [0, 1, 2] (by decide)

/-- Entry `e` causes a regular file attributed to world `w` to be written:
it matches `w`, survives the containment check, and is a regular file. -/
def WritesFileFor (outputDir : Str) (worlds : List Str) (w : Str) (e : TarEntry) : Prop :=
  matchWorld e.name worlds = w ∧ w ≠ [] ∧
    insideRoot outputDir (filepathJoin outputDir e.name) = true ∧
    e.typeflag = .reg

instance (outputDir : Str) (worlds : List Str) (w : Str) (e : TarEntry) :
    Decidable (WritesFileFor outputDir worlds w e) := by
  unfold WritesFileFor; infer_instance

/-- Helper: a step on an entry whose (matched, contained, regular) content
fits the size cap never fails, and bumps exactly the tally of the world the
entry writes a file for. -/
theorem extractStep_ok (outputDir : Str) (worlds : List Str) (st : ExtractState) (e : TarEntry)
    (hsz : matchWorld e.name worlds ≠ [] →
      insideRoot outputDir (filepathJoin outputDir e.name) = true →
      e.typeflag = .reg → e.size ≤ fileSizeLimit) :
    (extractStep outputDir worlds st e).2 = none ∧
    ∀ w, (extractStep outputDir worlds st e).1.tally w =
      st.tally w + (if WritesFileFor outputDir worlds w e then 1 else 0) := by
  obtain ⟨nm, tf, sz⟩ := e
  unfold extractStep
  dsimp only
  by_cases hm : matchWorld nm worlds = []
  · rw [if_pos hm]
    refine ⟨rfl, fun w => ?_⟩
    rw [if_neg (fun hw : WritesFileFor outputDir worlds w ⟨nm, tf, sz⟩ =>
      hw.2.1 (hw.1 ▸ hm))]
    simp
  · rw [if_neg hm]
    by_cases hin : insideRoot outputDir (filepathJoin outputDir nm) = false
    · rw [if_pos hin]
      refine ⟨rfl, fun w => ?_⟩
      rw [if_neg (fun hw : WritesFileFor outputDir worlds w ⟨nm, tf, sz⟩ => by
        rw [hw.2.2.1] at hin
        exact Bool.noConfusion hin)]
      simp
    · rw [if_neg hin]
      have hin' : insideRoot outputDir (filepathJoin outputDir nm) = true := by
        revert hin
        cases insideRoot outputDir (filepathJoin outputDir nm) <;> simp
      cases tf with
      | dir =>
        dsimp only
        refine ⟨rfl, fun w => ?_⟩
        rw [if_neg (fun hw : WritesFileFor outputDir worlds w ⟨nm, .dir, sz⟩ =>
          TypeFlag.noConfusion hw.2.2.2)]
        simp
      | other =>
        dsimp only
        refine ⟨rfl, fun w => ?_⟩
        rw [if_neg (fun hw : WritesFileFor outputDir worlds w ⟨nm, .other, sz⟩ =>
          TypeFlag.noConfusion hw.2.2.2)]
        simp
      | reg =>
        dsimp only
        have hle : sz ≤ fileSizeLimit := hsz hm hin' rfl
        have hwf : writeFile sz = .ok sz := by
          unfold writeFile
          rw [Nat.min_eq_left (by omega), if_neg (by omega)]
        rw [hwf]
        refine ⟨rfl, fun w => ?_⟩
        dsimp only
        by_cases hww : w = matchWorld nm worlds
        · rw [if_pos hww, if_pos (show WritesFileFor outputDir worlds w ⟨nm, .reg, sz⟩ from
            ⟨hww.symm, hww ▸ hm, hin', rfl⟩)]
        · rw [if_neg hww, if_neg (fun hw : WritesFileFor outputDir worlds w ⟨nm, .reg, sz⟩ =>
            hww hw.1.symm)]
          simp

/-- Helper: a walk whose entries all fit the size cap completes without error
and accumulates, per world, exactly the count of entries writing a file for
that world. -/
theorem extractLoop_ok (outputDir : Str) (worlds : List Str) (entries : List TarEntry)
    (st : ExtractState)
    (hok : ∀ e ∈ entries, matchWorld e.name worlds ≠ [] →
      insideRoot outputDir (filepathJoin outputDir e.name) = true →
      e.typeflag = .reg → e.size ≤ fileSizeLimit) :
    (extractLoop outputDir worlds st entries).2 = none ∧
    ∀ w, (extractLoop outputDir worlds st entries).1.tally w =
      st.tally w + entries.countP (fun e => decide (WritesFileFor outputDir worlds w e)) := by
  induction entries generalizing st with
  | nil => exact ⟨rfl, fun w => by simp [extractLoop]⟩
  | cons e rest ih =>
    obtain ⟨hsnone, hstally⟩ :=
      extractStep_ok outputDir worlds st e (hok e (List.mem_cons_self e rest))
    obtain ⟨hlnone, hltally⟩ :=
      ih ((extractStep outputDir worlds st e).1)
        (fun e' he' => hok e' (List.mem_cons_of_mem e he'))
    have hred : extractLoop outputDir worlds st (e :: rest) =
        extractLoop outputDir worlds (extractStep outputDir worlds st e).1 rest := by
      have hsplit : extractStep outputDir worlds st e =
          ((extractStep outputDir worlds st e).1, none) := by
        rw [← hsnone]
      rw [show extractLoop outputDir worlds st (e :: rest) =
          (match extractStep outputDir worlds st e with
           | (st2, some msg) => (st2, some msg)
           | (st2, none) => extractLoop outputDir worlds st2 rest) from rfl,
        hsplit]
    rw [hred]
    refine ⟨hlnone, fun w => ?_⟩
    rw [hltally w, hstally w, List.countP_cons]
    by_cases hw : WritesFileFor outputDir worlds w e
    · rw [if_pos hw, if_pos (by simpa using hw)]
      omega
    · rw [if_neg hw, if_neg (by simpa using hw)]
      omega

/-- C9: when the walk reaches end-of-stream with every matched, contained
regular entry within the size cap, `extractWorlds` returns a nil error even
when some requested world names were never matched; those names appear
exactly as the warning list (the names with a zero tally, reported on the
diagnostic stream), and the tally of a name counts exactly the regular-file
entries written for it. -/
theorem c9_unmatched_world_is_warning_only (outputDir : Str) (worlds : List Str)
    (entries : List TarEntry)
    (hok : ∀ e ∈ entries, matchWorld e.name worlds ≠ [] →
      insideRoot outputDir (filepathJoin outputDir e.name) = true →
      e.typeflag = .reg → e.size ≤ fileSizeLimit) :
    ∃ st, extractWorlds outputDir worlds entries none =
        (st, none, worlds.filter (fun w => st.tally w == 0)) ∧
      ∀ w, st.tally w =
        entries.countP (fun e => decide (WritesFileFor outputDir worlds w e)) := by
  obtain ⟨hnone, htally⟩ := extractLoop_ok outputDir worlds entries initState hok
  refine ⟨(extractLoop outputDir worlds initState entries).1, ?_, fun w => ?_⟩
  · have hsplit : extractLoop outputDir worlds initState entries =
        ((extractLoop outputDir worlds initState entries).1, none) := by
      rw [← hnone]
    unfold extractWorlds
    rw [hsplit]
  · rw [htally w]
    simp [initState]

/-- C9 witness: a one-entry archive containing `world/r.mca` with the filter
set `{world, missing}` extracts successfully; `missing` only lands on the
warning list, and the tallies are `world ↦ 1`, `missing ↦ 0`. -/
theorem c9_unmatched_world_is_warning_only_witness :
    ∃ st, extractWorlds "/srv".data ["world".data, "missing".data]
        [⟨"world/r.mca".data, .reg, 5⟩] none =
        (st, none, (["world".data, "missing".data]).filter (fun w => st.tally w == 0)) ∧
      ∀ w, st.tally w =
        ([⟨"world/r.mca".data, TypeFlag.reg, 5⟩] : List TarEntry).countP
          (fun e => decide (WritesFileFor "/srv".data ["world".data, "missing".data] w e)) :=
  c9_unmatched_world_is_warning_only "/srv".data ["world".data, "missing".data]
    [⟨"world/r.mca".data, .reg, 5⟩] (by decide)

/-! ## Path lemmas for the containment check (claim C1) -/

/-- Helper: splitting never yields an empty part list. -/
theorem splitSlash_ne_nil (s : Str) : splitSlash s ≠ [] := by
  cases s with
  | nil => simp [splitSlash]
  | cons c rest =>
    unfold splitSlash
    split
    · simp
    · split <;> simp_all

/-- Helper: every part produced by splitting is slash-free. -/
theorem noSlash_of_mem_splitSlash {p : Str} {s : Str} (h : p ∈ splitSlash s) : '/' ∉ p := by
  induction s generalizing p with
  | nil =>
    simp only [splitSlash, List.mem_singleton] at h
    subst h
    simp
  | cons c rest ih =>
    unfold splitSlash at h
    split at h
    · rcases List.mem_cons.mp h with h1 | h1
      · subst h1; simp
      · exact ih h1
    · rename_i hc
      cases hsp : splitSlash rest with
      | nil => exact absurd hsp (splitSlash_ne_nil rest)
      | cons s0 ss =>
        rw [hsp] at h
        rcases List.mem_cons.mp h with h1 | h1
        · subst h1
          intro hmem
          rcases List.mem_cons.mp hmem with h2 | h2
          · exact hc h2.symm
          · exact ih (hsp ▸ List.mem_cons_self s0 ss) h2
        · exact ih (hsp ▸ List.mem_cons_of_mem s0 h1)

/-- Helper: a slash-free string splits into itself. -/
theorem splitSlash_noSlash {s : Str} (h : '/' ∉ s) : splitSlash s = [s] := by
  induction s with
  | nil => rfl
  | cons c rest ih =>
    simp only [List.mem_cons, not_or] at h
    unfold splitSlash
    rw [if_neg (fun he => h.1 he.symm), ih h.2]

/-- Helper: defining equation of `splitSlash` on a cons cell. -/
theorem splitSlash_cons_eq (c : Char) (s : Str) :
    splitSlash (c :: s) =
      if c = '/' then [] :: splitSlash s
      else
        match splitSlash s with
        | [] => [[c]]
        | s0 :: ss => (c :: s0) :: ss := rfl

/-- Helper: splitting distributes over the last slash-free head part. -/
theorem splitSlash_append_cons {a : Str} (b : Str) (h : '/' ∉ a) :
    splitSlash (a ++ '/' :: b) = a :: splitSlash b := by
  induction a with
  | nil => simp [splitSlash]
  | cons c rest ih =>
    simp only [List.mem_cons, not_or] at h
    rw [List.cons_append, splitSlash_cons_eq, if_neg (fun he => h.1 he.symm), ih h.2]

/-- Helper: splitting inverts joining for non-empty lists of slash-free
parts. -/
theorem splitSlash_joinSlash {ps : List Str} (hps : ∀ p ∈ ps, '/' ∉ p) (hne : ps ≠ []) :
    splitSlash (joinSlash ps) = ps := by
  induction ps with
  | nil => exact absurd rfl hne
  | cons p rest ih =>
    cases rest with
    | nil => exact splitSlash_noSlash (hps p (List.mem_cons_self p []))
    | cons q qs =>
      rw [show joinSlash (p :: q :: qs) = p ++ '/' :: joinSlash (q :: qs) from rfl,
        splitSlash_append_cons _ (hps p (List.mem_cons_self p (q :: qs))),
        ih (fun x hx => hps x (List.mem_cons_of_mem p hx)) (by simp)]

/-- Helper: splitting a join with a trailing slash appends one empty part. -/
theorem splitSlash_joinSlash_slash {ps : List Str} (hps : ∀ p ∈ ps, '/' ∉ p)
    (hne : ps ≠ []) : splitSlash (joinSlash ps ++ ['/']) = ps ++ [[]] := by
  induction ps with
  | nil => exact absurd rfl hne
  | cons p rest ih =>
    cases rest with
    | nil =>
      rw [show joinSlash [p] = p from rfl,
        show (p ++ ['/'] : Str) = p ++ '/' :: [] from rfl,
        splitSlash_append_cons [] (hps p (List.mem_cons_self p []))]
      rfl
    | cons q qs =>
      rw [show joinSlash (p :: q :: qs) = p ++ '/' :: joinSlash (q :: qs) from rfl,
        List.append_assoc, List.cons_append,
        splitSlash_append_cons _ (hps p (List.mem_cons_self p (q :: qs))),
        ih (fun x hx => hps x (List.mem_cons_of_mem p hx)) (by simp)]
      rfl

/-- Helper: joining distributes over a final part. -/
theorem joinSlash_concat {cs : List Str} (l : Str) (hne : cs ≠ []) :
    joinSlash (cs ++ [l]) = joinSlash cs ++ '/' :: l := by
  induction cs with
  | nil => exact absurd rfl hne
  | cons c rest ih =>
    cases rest with
    | nil => rfl
    | cons q qs =>
      rw [List.cons_append,
        show joinSlash (c :: (q :: qs ++ [l])) = c ++ '/' :: joinSlash (q :: qs ++ [l]) from
          rfl,
        ih (by simp),
        show joinSlash (c :: q :: qs) = c ++ '/' :: joinSlash (q :: qs) from rfl,
        List.append_assoc]
      rfl

/-- Helper: a slash-free string has no separator part to keep. -/
theorem dropAfterLastSlash_noSlash {s : Str} (h : '/' ∉ s) :
    dropAfterLastSlash s = [] := by
  induction s with
  | nil => rfl
  | cons c rest ih =>
    simp only [List.mem_cons, not_or] at h
    unfold dropAfterLastSlash
    rw [ih h.2, if_pos rfl, if_neg (fun he => h.1 he.symm)]

/-- Helper: the kept part of `a ++ '/' :: b` for slash-free `b` is
`a ++ "/"`. -/
theorem dropAfterLastSlash_append {b : Str} (a : Str) (h : '/' ∉ b) :
    dropAfterLastSlash (a ++ '/' :: b) = a ++ ['/'] := by
  induction a with
  | nil =>
    simp only [List.nil_append]
    unfold dropAfterLastSlash
    rw [dropAfterLastSlash_noSlash h, if_pos rfl, if_pos rfl]
  | cons c rest ih =>
    simp only [List.cons_append]
    unfold dropAfterLastSlash
    rw [ih, if_neg (by simp)]

/-- A component of a cleaned path: non-empty, not `.`, slash-free. -/
def CleanComp (c : Str) : Prop := c ≠ [] ∧ c ≠ ['.'] ∧ '/' ∉ c

/-- Invariant of the `cleanAux` stack (top first): clean components, the
`..` elements forming a contiguous run at the bottom, and none at all for a
rooted path. -/
def StackOK (rooted : Bool) (stack : List Str) : Prop :=
  (∀ c ∈ stack, CleanComp c) ∧
  ∃ regs k, stack = regs ++ List.replicate k dotdot ∧
    (∀ c ∈ regs, c ≠ dotdot) ∧ (rooted = true → k = 0)

/-- Shape of the component list of a cleaned path: clean components, a
leading run of `..` elements (none when rooted), then ordinary elements. -/
def CleanForm (rooted : Bool) (comps : List Str) : Prop :=
  (∀ c ∈ comps, CleanComp c) ∧
  ∃ k regs, comps = List.replicate k dotdot ++ regs ∧
    (∀ c ∈ regs, c ≠ dotdot) ∧ (rooted = true → k = 0)

/-- Helper: defining equation of `cleanAux` on a cons cell. -/
theorem cleanAux_cons_eq (rooted : Bool) (stack : List Str) (c : Str) (rest : List Str) :
    cleanAux rooted stack (c :: rest) =
      if c = [] ∨ c = ['.'] then cleanAux rooted stack rest
      else if c = dotdot then
        match stack with
        | [] =>
          if rooted then cleanAux rooted [] rest
          else cleanAux rooted [dotdot] rest
        | top :: stack2 =>
          if top = dotdot then cleanAux rooted (dotdot :: top :: stack2) rest
          else cleanAux rooted stack2 rest
      else cleanAux rooted (c :: stack) rest := by
  rw [cleanAux.eq_def]

/-- Helper: the element-processing loop preserves its stack invariant and
produces a clean-form component list. -/
theorem cleanAux_form (rooted : Bool) (input : List Str)
    (hin : ∀ c ∈ input, '/' ∉ c) :
    ∀ stack, StackOK rooted stack → CleanForm rooted (cleanAux rooted stack input) := by
  induction input with
  | nil =>
    intro stack hst
    obtain ⟨hcc, regs, k, heq, hnd, hk⟩ := hst
    rw [show cleanAux rooted stack [] = stack.reverse from rfl, heq,
      List.reverse_append, List.reverse_replicate]
    exact ⟨fun c hc => hcc c (by
        rw [heq]
        rcases List.mem_append.mp hc with h | h
        · exact List.mem_append_right _ h
        · exact List.mem_append_left _ (List.mem_reverse.mp h)),
      k, regs.reverse, rfl,
      fun c hc => hnd c (List.mem_reverse.mp hc), hk⟩
  | cons c rest ih =>
    intro stack hst
    rw [cleanAux_cons_eq]
    by_cases hce : c = [] ∨ c = ['.']
    · rw [if_pos hce]
      exact ih (fun x hx => hin x (List.mem_cons_of_mem c hx)) stack hst
    · rw [if_neg hce]
      push_neg at hce
      have hrest : ∀ x ∈ rest, '/' ∉ x := fun x hx => hin x (List.mem_cons_of_mem c hx)
      obtain ⟨hcc, regs, k, heq, hnd, hk⟩ := hst
      by_cases hdd : c = dotdot
      · rw [if_pos hdd]
        cases hstk : stack with
        | nil =>
          dsimp only
          cases rooted with
          | true =>
            rw [if_pos rfl]
            exact ih hrest [] ⟨by simp, [], 0, by simp, by simp, fun _ => rfl⟩
          | false =>
            rw [if_neg Bool.false_ne_true]
            refine ih hrest [dotdot] ⟨?_, [], 1, by simp, by simp, ?_⟩
            · intro x hx
              rw [List.mem_singleton.mp hx]
              exact ⟨by decide, by decide, by decide⟩
            · intro hcon
              exact absurd hcon Bool.false_ne_true
        | cons top stack2 =>
          dsimp only
          by_cases htd : top = dotdot
          · rw [if_pos htd]
            have hregs : regs = [] := by
              cases hr2 : regs with
              | nil => rfl
              | cons r rs =>
                rw [hstk, hr2, List.cons_append] at heq
                have hteq : top = r := (List.cons.injEq _ _ _ _).mp heq |>.1
                exact absurd (hteq ▸ htd)
                  (hnd r (hr2 ▸ List.mem_cons_self r rs))
            rw [hregs, List.nil_append] at heq
            have hkpos : k ≠ 0 := by
              intro h0
              rw [h0] at heq
              exact List.noConfusion (hstk ▸ heq)
            have hrooted : rooted = false := by
              cases hr : rooted with
              | false => rfl
              | true => exact absurd (hk hr) hkpos
            refine ih hrest (dotdot :: top :: stack2) ⟨?_, [], k + 1, ?_, by simp, ?_⟩
            · intro x hx
              rcases List.mem_cons.mp hx with h | h
              · rw [h]; exact ⟨by decide, by decide, by decide⟩
              · exact hcc x (hstk ▸ h)
            · rw [List.nil_append, List.replicate_succ, ← heq, hstk]
            · intro hcon
              exact absurd (hrooted ▸ hcon) Bool.false_ne_true
          · rw [if_neg htd]
            cases hr2 : regs with
            | nil =>
              exfalso
              rw [hstk, hr2, List.nil_append] at heq
              cases hk2 : k with
              | zero => rw [hk2] at heq; exact List.noConfusion heq
              | succ j =>
                rw [hk2, List.replicate_succ] at heq
                exact htd ((List.cons.injEq _ _ _ _).mp heq).1
            | cons r rs =>
              rw [hstk, hr2, List.cons_append] at heq
              obtain ⟨hrt, hs2⟩ := (List.cons.injEq _ _ _ _).mp heq
              refine ih hrest stack2 ⟨?_, rs, k, hs2, ?_, hk⟩
              · intro x hx
                exact hcc x (hstk ▸ List.mem_cons_of_mem top hx)
              · intro x hx
                exact hnd x (hr2 ▸ List.mem_cons_of_mem r hx)
      · rw [if_neg hdd]
        refine ih hrest (c :: stack) ⟨?_, c :: regs, k, ?_, ?_, hk⟩
        · intro x hx
          rcases List.mem_cons.mp hx with h | h
          · rw [h]
            exact ⟨hce.1, hce.2, hin c (List.mem_cons_self c rest)⟩
          · exact hcc x h
        · rw [heq, List.cons_append]
        · intro x hx
          rcases List.mem_cons.mp hx with h | h
          · rw [h]; exact hdd
          · exact hnd x h

/-- Helper: ordinary clean components are pushed verbatim. -/
theorem cleanAux_regs (rooted : Bool) (regs : List Str)
    (h : ∀ c ∈ regs, CleanComp c ∧ c ≠ dotdot) :
    ∀ stack, cleanAux rooted stack regs = stack.reverse ++ regs := by
  induction regs with
  | nil => intro stack; simp [show cleanAux rooted stack [] = stack.reverse from rfl]
  | cons r rs ih =>
    intro stack
    obtain ⟨⟨hne, hdot, -⟩, hdd⟩ := h r (List.mem_cons_self r rs)
    rw [cleanAux_cons_eq, if_neg (by simp [hne, hdot]), if_neg hdd,
      ih (fun x hx => h x (List.mem_cons_of_mem r hx)) (r :: stack)]
    simp

/-- Helper: in a relative path a run of `..` elements accumulates onto an
all-`..` stack. -/
theorem cleanAux_dotdots (regs : List Str)
    (h : ∀ c ∈ regs, CleanComp c ∧ c ≠ dotdot) :
    ∀ k j, cleanAux false (List.replicate j dotdot) (List.replicate k dotdot ++ regs) =
      List.replicate (j + k) dotdot ++ regs := by
  intro k
  induction k with
  | zero =>
    intro j
    rw [List.replicate_zero, List.nil_append, cleanAux_regs false regs h,
      List.reverse_replicate, Nat.add_zero]
  | succ n ih =>
    intro j
    rw [List.replicate_succ, List.cons_append, cleanAux_cons_eq,
      if_neg (by decide), if_pos rfl]
    cases hj : j with
    | zero =>
      rw [List.replicate_zero]
      dsimp only
      rw [if_neg Bool.false_ne_true,
        show ([dotdot] : List Str) = List.replicate 1 dotdot from rfl, ih 1,
        show 1 + n = 0 + (n + 1) from by omega]
    | succ m =>
      rw [List.replicate_succ]
      dsimp only
      rw [if_pos rfl,
        show (dotdot :: dotdot :: List.replicate m dotdot : List Str) =
          List.replicate (m + 2) dotdot from by simp [List.replicate_succ], ih (m + 2),
        show m + 2 + n = m + 1 + (n + 1) from by omega]

/-- Helper: a clean-form component list is a fixed point of the processing
loop. -/
theorem cleanAux_fixed {rooted : Bool} {comps : List Str}
    (h : CleanForm rooted comps) : cleanAux rooted [] comps = comps := by
  obtain ⟨hcc, k, regs, heq, hnd, hk⟩ := h
  have hregs : ∀ c ∈ regs, CleanComp c ∧ c ≠ dotdot := fun c hc =>
    ⟨hcc c (heq ▸ List.mem_append_right _ hc), hnd c hc⟩
  subst heq
  rcases Bool.eq_false_or_eq_true rooted with hr | hr
  · subst hr
    rw [hk rfl, List.replicate_zero, List.nil_append,
      cleanAux_regs true regs hregs []]
    simp
  · subst hr
    have h0 := cleanAux_dotdots regs hregs k 0
    rw [List.replicate_zero, Nat.zero_add] at h0
    exact h0

/-- Helper: a trailing empty element is ignored by the processing loop. -/
theorem cleanAux_trailing_empty (rooted : Bool) (input : List Str) :
    ∀ stack, cleanAux rooted stack (input ++ [[]]) = cleanAux rooted stack input := by
  induction input with
  | nil =>
    intro stack
    rw [List.nil_append, cleanAux_cons_eq, if_pos (Or.inl rfl)]
  | cons c rest ih =>
    intro stack
    rw [List.cons_append, cleanAux_cons_eq, cleanAux_cons_eq]
    by_cases hce : c = [] ∨ c = ['.']
    · rw [if_pos hce, if_pos hce, ih]
    · rw [if_neg hce, if_neg hce]
      by_cases hdd : c = dotdot
      · rw [if_pos hdd, if_pos hdd]
        cases stack with
        | nil =>
          dsimp only
          cases rooted with
          | true => rw [if_pos rfl, if_pos rfl, ih]
          | false => rw [if_neg Bool.false_ne_true, if_neg Bool.false_ne_true, ih]
        | cons top stack2 =>
          dsimp only
          by_cases htd : top = dotdot
          · rw [if_pos htd, if_pos htd, ih]
          · rw [if_neg htd, if_neg htd, ih]
      · rw [if_neg hdd, if_neg hdd, ih]

/-- Helper: `cleanPath` never returns the empty string. -/
theorem renderPath_ne_nil {rooted : Bool} {comps : List Str}
    (h : ∀ c ∈ comps, CleanComp c) : renderPath rooted comps ≠ [] := by
  unfold renderPath
  cases rooted with
  | true =>
    rw [if_pos rfl]
    cases comps with
    | nil => simp
    | cons c cs => simp
  | false =>
    rw [if_neg Bool.false_ne_true]
    cases comps with
    | nil => simp
    | cons c cs =>
      rw [if_neg (by simp)]
      obtain ⟨hne, -, -⟩ := h c (List.mem_cons_self c cs)
      cases cs with
      | nil =>
        rw [show joinSlash [c] = c from rfl]
        exact hne
      | cons q qs =>
        rw [show joinSlash (c :: q :: qs) = c ++ '/' :: joinSlash (q :: qs) from rfl]
        simp

/-- The rootedness bit `cleanPath` computes for a string. -/
def rootedOf (s : Str) : Bool := s.head? = some '/'

/-- Helper: `cleanPath` output characterized: always the rendering of a
clean-form component list for the path's rootedness. -/
theorem cleanPath_form (s : Str) :
    ∃ comps, CleanForm (rootedOf s) comps ∧
      cleanPath s = renderPath (rootedOf s) comps := by
  by_cases hs : s = []
  · subst hs
    exact ⟨[], ⟨by simp, 0, [], by simp, by simp, fun _ => rfl⟩, rfl⟩
  · refine ⟨cleanAux (rootedOf s) [] (splitSlash s), ?_, ?_⟩
    · exact cleanAux_form (rootedOf s) (splitSlash s)
        (fun c hc => noSlash_of_mem_splitSlash hc) []
        ⟨by simp, [], 0, by simp, by simp, fun _ => rfl⟩
    · unfold cleanPath
      rw [if_neg hs]
      rfl

/-- Helper: the first character of a rendered non-empty clean component list
determines rootedness: a slash exactly when rooted. -/
theorem renderPath_head (rooted : Bool) (comps : List Str)
    (h : ∀ c ∈ comps, CleanComp c) :
    rootedOf (renderPath rooted comps) = rooted ∨ comps = [] := by
  cases comps with
  | nil => exact Or.inr rfl
  | cons c cs =>
    left
    obtain ⟨hne, -, hns⟩ := h c (List.mem_cons_self c cs)
    unfold renderPath
    cases rooted with
    | true => rw [if_pos rfl, if_neg (by simp)]; rfl
    | false =>
      rw [if_neg Bool.false_ne_true, if_neg (by simp)]
      cases hc : c with
      | nil => exact absurd hc hne
      | cons ch ct =>
        have hch : ch ≠ '/' := by
          intro he
          exact hns (hc ▸ he ▸ List.mem_cons_self ch ct)
        cases cs with
        | nil =>
          rw [show joinSlash [ch :: ct] = ch :: ct from rfl]
          simp [rootedOf, hch]
        | cons q qs =>
          rw [show joinSlash ((ch :: ct) :: q :: qs) =
            (ch :: ct) ++ '/' :: joinSlash (q :: qs) from rfl]
          simp [rootedOf, hch]

/-- Helper: a rendered clean-form component list is a fixed point of
`cleanPath`. -/
theorem cleanPath_render_fixed {rooted : Bool} {comps : List Str}
    (h : CleanForm rooted comps) :
    cleanPath (renderPath rooted comps) = renderPath rooted comps := by
  cases hcs : comps with
  | nil =>
    cases rooted with
    | true => decide
    | false => decide
  | cons c cs =>
    subst hcs
    have hnn : renderPath rooted (c :: cs) ≠ [] := renderPath_ne_nil h.1
    unfold cleanPath
    rw [if_neg hnn]
    rcases renderPath_head rooted (c :: cs) h.1 with hhead | hnil
    · show renderPath (rootedOf (renderPath rooted (c :: cs)))
          (cleanAux (rootedOf (renderPath rooted (c :: cs))) []
            (splitSlash (renderPath rooted (c :: cs)))) =
          renderPath rooted (c :: cs)
      rw [hhead]
      have hsplit : splitSlash (renderPath rooted (c :: cs)) =
          if rooted then [] :: (c :: cs) else (c :: cs) := by
        have hmem : ∀ p ∈ (c :: cs : List Str), '/' ∉ p := fun p hp => (h.1 p hp).2.2
        cases rooted with
        | true =>
          rw [if_pos rfl]
          unfold renderPath
          rw [if_pos rfl, if_neg (by simp), splitSlash_cons_eq, if_pos rfl,
            splitSlash_joinSlash hmem (by simp)]
        | false =>
          rw [if_neg Bool.false_ne_true]
          unfold renderPath
          rw [if_neg Bool.false_ne_true, if_neg (by simp),
            splitSlash_joinSlash hmem (by simp)]
      rw [hsplit]
      cases rooted with
      | true =>
        rw [if_pos rfl, cleanAux_cons_eq, if_pos (Or.inl rfl), cleanAux_fixed h]
      | false =>
        rw [if_neg Bool.false_ne_true, cleanAux_fixed h]
    · exact absurd hnil (by simp)

/-- Helper: `cleanPath` strips a trailing separator from a rendered
non-empty clean-form component list. -/
theorem cleanPath_strip_trailing {rooted : Bool} {comps : List Str}
    (h : CleanForm rooted comps) (hne : comps ≠ []) :
    cleanPath (renderPath rooted comps ++ ['/']) = renderPath rooted comps := by
  cases hcs : comps with
  | nil => exact absurd hcs hne
  | cons c cs =>
    subst hcs
    have hmem : ∀ p ∈ (c :: cs : List Str), '/' ∉ p := fun p hp => (h.1 p hp).2.2
    have hnn : renderPath rooted (c :: cs) ≠ [] := renderPath_ne_nil h.1
    unfold cleanPath
    rw [if_neg (by simp)]
    have hhead : rootedOf (renderPath rooted (c :: cs) ++ ['/']) = rooted := by
      rcases renderPath_head rooted (c :: cs) h.1 with hh | hnil
      · unfold rootedOf at hh ⊢
        cases hr : renderPath rooted (c :: cs) with
        | nil => exact absurd hr hnn
        | cons x xs =>
          rw [hr] at hh
          simpa using hh
      · exact absurd hnil (by simp)
    show renderPath (rootedOf (renderPath rooted (c :: cs) ++ ['/']))
        (cleanAux (rootedOf (renderPath rooted (c :: cs) ++ ['/'])) []
          (splitSlash (renderPath rooted (c :: cs) ++ ['/']))) =
        renderPath rooted (c :: cs)
    rw [hhead]
    have hsplit : splitSlash (renderPath rooted (c :: cs) ++ ['/']) =
        if rooted then [] :: ((c :: cs) ++ [[]]) else ((c :: cs) ++ [[]]) := by
      cases rooted with
      | true =>
        rw [if_pos rfl]
        unfold renderPath
        rw [if_pos rfl, if_neg (by simp), List.cons_append, splitSlash_cons_eq,
          if_pos rfl, splitSlash_joinSlash_slash hmem (by simp)]
      | false =>
        rw [if_neg Bool.false_ne_true]
        unfold renderPath
        rw [if_neg Bool.false_ne_true, if_neg (by simp),
          splitSlash_joinSlash_slash hmem (by simp)]
    rw [hsplit]
    cases rooted with
    | true =>
      rw [if_pos rfl, cleanAux_cons_eq, if_pos (Or.inl rfl),
        cleanAux_trailing_empty true (c :: cs) [], cleanAux_fixed h]
    | false =>
      rw [if_neg Bool.false_ne_true, cleanAux_trailing_empty false (c :: cs) [],
        cleanAux_fixed h]

/-- Helper: `cleanPath` never returns the empty string. -/
theorem cleanPath_ne_nil (s : Str) : cleanPath s ≠ [] := by
  obtain ⟨comps, hcf, heq⟩ := cleanPath_form s
  rw [heq]
  exact renderPath_ne_nil hcf.1

/-- Helper: rendering distributes over a final component. -/
theorem renderPath_concat (rooted : Bool) (cs : List Str) (l : Str) (hne : cs ≠ []) :
    renderPath rooted (cs ++ [l]) = renderPath rooted cs ++ '/' :: l := by
  have h1 : cs ++ [l] ≠ [] := by simp
  unfold renderPath
  cases rooted with
  | true =>
    rw [if_pos rfl, if_pos rfl, if_neg h1, if_neg hne, joinSlash_concat l hne,
      List.cons_append]
  | false =>
    rw [if_neg Bool.false_ne_true, if_neg Bool.false_ne_true, if_neg h1, if_neg hne,
      joinSlash_concat l hne]

/-- Helper: clean form is preserved by dropping the final component. -/
theorem CleanForm_dropLast {rooted : Bool} {comps : List Str}
    (h : CleanForm rooted comps) : CleanForm rooted comps.dropLast := by
  obtain ⟨hcc, k, regs, heq, hnd, hk⟩ := h
  refine ⟨fun c hc => hcc c ((List.dropLast_sublist comps).subset hc), ?_⟩
  subst heq
  rcases List.eq_nil_or_concat regs with hr | ⟨rs, r, hr⟩
  · subst hr
    rw [List.append_nil]
    cases hk2 : k with
    | zero => exact ⟨0, [], by simp, by simp, fun _ => rfl⟩
    | succ j =>
      rw [List.replicate_succ', List.dropLast_concat]
      refine ⟨j, [], by simp, by simp, ?_⟩
      intro hrt
      have := hk hrt
      omega
  · rw [List.concat_eq_append] at hr
    subst hr
    rw [← List.append_assoc, List.dropLast_concat]
    exact ⟨k, rs, rfl, fun c hc => hnd c (List.mem_append_left _ hc), hk⟩

/-- A path is the destination root itself or lies lexically below it, per
the prefix check of extractor.go line 396. -/
def WithinRoot (outputDir p : Str) : Prop :=
  p = cleanPath outputDir ∨ (cleanPath outputDir ++ ['/']) <+: p

/-- Helper: `insideRoot` always fails on the empty target path. -/
theorem insideRoot_nil (outputDir : Str) : insideRoot outputDir [] = false := by
  unfold insideRoot
  cases hb : (cleanPath outputDir ++ ['/']).isPrefixOf (cleanPath []) with
  | false => rfl
  | true =>
    exfalso
    have hpre := List.isPrefixOf_iff_prefix.mp hb
    have hlen := hpre.length_le
    rw [List.length_append, List.length_singleton] at hlen
    have hr : 1 ≤ (cleanPath outputDir).length :=
      List.length_pos.mpr (cleanPath_ne_nil outputDir)
    have h1 : (cleanPath ([] : Str)).length = 1 := rfl
    omega

/-- Helper: `filepathJoin` returns either the empty string or a cleaned
path. -/
theorem filepathJoin_clean_or_nil (a b : Str) :
    filepathJoin a b = [] ∨ ∃ s, filepathJoin a b = cleanPath s := by
  unfold filepathJoin
  by_cases h1 : a = [] ∧ b = []
  · rw [if_pos h1]
    exact Or.inl rfl
  · rw [if_neg h1]
    by_cases h2 : a = []
    · rw [if_pos h2]
      exact Or.inr ⟨b, rfl⟩
    · rw [if_neg h2]
      exact Or.inr ⟨a ++ '/' :: b, rfl⟩

/-- Helper: when a cleaned path lies strictly below the root, so does its
parent directory (or the parent is the root itself). -/
theorem insideRoot_dir_within {outputDir : Str} {rooted : Bool} {comps : List Str}
    (hcf : CleanForm rooted comps)
    (hin : (cleanPath outputDir ++ ['/']) <+: renderPath rooted comps) :
    WithinRoot outputDir (dirPath (renderPath rooted comps)) := by
  rcases List.eq_nil_or_concat comps with hc | ⟨cs, l, hc⟩
  · subst hc
    exfalso
    have hlen := hin.length_le
    rw [List.length_append, List.length_singleton] at hlen
    have hone : (renderPath rooted ([] : List Str)).length = 1 := by
      cases rooted with
      | true => rfl
      | false => rfl
    have hr : 1 ≤ (cleanPath outputDir).length :=
      List.length_pos.mpr (cleanPath_ne_nil outputDir)
    omega
  · rw [List.concat_eq_append] at hc
    subst hc
    have hlns : '/' ∉ l :=
      (hcf.1 l (List.mem_append_right _ (List.mem_singleton_self l))).2.2
    cases hcs : cs with
    | nil =>
      exfalso
      subst hcs
      rw [List.nil_append] at hin
      cases rooted with
      | true =>
        have h1 : renderPath true [l] = '/' :: l := by
          unfold renderPath
          rw [if_pos rfl, if_neg (by simp)]
          rfl
        rw [h1] at hin
        obtain ⟨t, ht⟩ := hin
        cases hr : cleanPath outputDir with
        | nil => exact cleanPath_ne_nil outputDir hr
        | cons rh rt =>
          rw [hr, List.cons_append, List.cons_append] at ht
          obtain ⟨hrh, hl⟩ := (List.cons.injEq _ _ _ _).mp ht
          apply hlns
          rw [← hl]
          exact List.mem_append_left _
            (List.mem_append_right _ (List.mem_singleton_self '/'))
      | false =>
        have h1 : renderPath false [l] = l := by
          unfold renderPath
          rw [if_neg Bool.false_ne_true, if_neg (by simp)]
          rfl
        rw [h1] at hin
        exact hlns (hin.subset
          (List.mem_append_right _ (List.mem_singleton_self '/')))
    | cons c0 cs0 =>
      subst hcs
      have hcne : (c0 :: cs0 : List Str) ≠ [] := by simp
      have hcf2 : CleanForm rooted (c0 :: cs0) := by
        have hd := CleanForm_dropLast hcf
        rwa [List.dropLast_concat] at hd
      rw [renderPath_concat rooted _ l hcne] at hin ⊢
      have hdir : dirPath (renderPath rooted (c0 :: cs0) ++ '/' :: l) =
          renderPath rooted (c0 :: cs0) := by
        unfold dirPath
        rw [dropAfterLastSlash_append _ hlns, cleanPath_strip_trailing hcf2 hcne]
      rw [hdir]
      obtain ⟨t, ht⟩ := hin
      have ht' : cleanPath outputDir ++ '/' :: t =
          renderPath rooted (c0 :: cs0) ++ '/' :: l := by
        rw [← ht, List.append_assoc]
        rfl
      rcases List.append_eq_append_iff.mp ht' with ⟨w, hw1, hw2⟩ | ⟨w, hw1, hw2⟩
      · cases w with
        | nil =>
          left
          rw [hw1, List.append_nil]
        | cons ch wt =>
          obtain ⟨hch, -⟩ := (List.cons.injEq _ _ _ _).mp hw2
          right
          refine ⟨wt, ?_⟩
          rw [hw1, ← hch, List.append_assoc]
          rfl
      · cases w with
        | nil =>
          left
          rw [List.append_nil] at hw1
          rw [hw1]
        | cons ch wt =>
          exfalso
          obtain ⟨hch, hl⟩ := (List.cons.injEq _ _ _ _).mp hw2
          apply hlns
          rw [hl]
          exact List.mem_append_right _ (List.mem_cons_self '/' t)

/-- Helper: an entry whose joined path fails the containment check leaves the
walk state untouched, wherever it occurs in the stream. -/
theorem extractLoop_skip (outputDir : Str) (worlds : List Str) (e : TarEntry)
    (h : insideRoot outputDir (filepathJoin outputDir e.name) = false) :
    ∀ entries1 st entries2,
      extractLoop outputDir worlds st (entries1 ++ e :: entries2) =
        extractLoop outputDir worlds st (entries1 ++ entries2) := by
  have hstep : ∀ st, extractStep outputDir worlds st e = (st, none) := by
    intro st
    unfold extractStep
    by_cases hm : matchWorld e.name worlds = []
    · rw [if_pos hm]
    · rw [if_neg hm, if_pos h]
  intro entries1
  induction entries1 with
  | nil =>
    intro st entries2
    rw [List.nil_append, List.nil_append,
      show extractLoop outputDir worlds st (e :: entries2) =
        (match extractStep outputDir worlds st e with
         | (st2, some msg) => (st2, some msg)
         | (st2, none) => extractLoop outputDir worlds st2 entries2) from rfl,
      hstep st]
  | cons x xs ih =>
    intro st entries2
    rw [List.cons_append, List.cons_append,
      show extractLoop outputDir worlds st (x :: (xs ++ e :: entries2)) =
        (match extractStep outputDir worlds st x with
         | (st2, some msg) => (st2, some msg)
         | (st2, none) => extractLoop outputDir worlds st2 (xs ++ e :: entries2)) from
        rfl,
      show extractLoop outputDir worlds st (x :: (xs ++ entries2)) =
        (match extractStep outputDir worlds st x with
         | (st2, some msg) => (st2, some msg)
         | (st2, none) => extractLoop outputDir worlds st2 (xs ++ entries2)) from rfl]
    rcases hx : extractStep outputDir worlds st x with ⟨st2, err⟩
    cases err with
    | some msg => rfl
    | none => exact ih st2 entries2

/-- C1: an entry whose joined-and-cleaned path does not lie strictly within
the destination root is silently skipped: the step leaves the state untouched
with no error, the whole `extractWorlds` run is unchanged by the entry's
presence, and — in particular — for an entry named
`world/../../etc/passwd` every write the step performs (for any destination
root and filter set) stays within the destination root. -/
theorem c1_outside_root_skipped :
    (∀ outputDir worlds st e,
      insideRoot outputDir (filepathJoin outputDir e.name) = false →
      extractStep outputDir worlds st e = (st, none)) ∧
    (∀ outputDir worlds entries1 entries2 e walkError,
      insideRoot outputDir (filepathJoin outputDir e.name) = false →
      extractWorlds outputDir worlds (entries1 ++ e :: entries2) walkError =
        extractWorlds outputDir worlds (entries1 ++ entries2) walkError) ∧
    (∀ outputDir worlds st e, e.name = "world/../../etc/passwd".data →
      ∀ a ∈ (extractStep outputDir worlds st e).1.trace.drop st.trace.length,
        WithinRoot outputDir a.path) := by
  refine ⟨?_, ?_, ?_⟩
  · intro outputDir worlds st e h
    unfold extractStep
    by_cases hm : matchWorld e.name worlds = []
    · rw [if_pos hm]
    · rw [if_neg hm, if_pos h]
  · intro outputDir worlds entries1 entries2 e walkError h
    unfold extractWorlds
    rw [extractLoop_skip outputDir worlds e h entries1 initState entries2]
  · intro outputDir worlds st e hname a ha
    obtain ⟨nm, tf, size⟩ := e
    revert ha
    unfold extractStep
    dsimp only
    by_cases hm : matchWorld nm worlds = []
    · rw [if_pos hm]
      intro ha
      rw [List.drop_length] at ha
      exact absurd ha (List.not_mem_nil a)
    · rw [if_neg hm]
      by_cases hin : insideRoot outputDir (filepathJoin outputDir nm) = false
      · rw [if_pos hin]
        intro ha
        rw [List.drop_length] at ha
        exact absurd ha (List.not_mem_nil a)
      · rw [if_neg hin]
        have hin' : insideRoot outputDir (filepathJoin outputDir nm) = true := by
          revert hin
          cases insideRoot outputDir (filepathJoin outputDir nm) <;> simp
        rcases filepathJoin_clean_or_nil outputDir nm with hj | ⟨s, hj⟩
        · rw [hj, insideRoot_nil] at hin'
          exact absurd hin' Bool.false_ne_true
        · obtain ⟨comps, hcf, hform⟩ := cleanPath_form s
          have htarget : filepathJoin outputDir nm = renderPath (rootedOf s) comps :=
            hj.trans hform
          have hprefix : (cleanPath outputDir ++ ['/']) <+:
              renderPath (rootedOf s) comps := by
            have h2 := hin'
            unfold insideRoot at h2
            rw [htarget, cleanPath_render_fixed hcf] at h2
            exact List.isPrefixOf_iff_prefix.mp h2
          have hw1 : WithinRoot outputDir (filepathJoin outputDir nm) := by
            right
            rw [htarget]
            exact hprefix
          have hw2 : WithinRoot outputDir (dirPath (filepathJoin outputDir nm)) := by
            rw [htarget]
            exact insideRoot_dir_within hcf hprefix
          cases tf with
          | dir =>
            dsimp only
            intro ha
            rw [List.drop_left] at ha
            rw [List.mem_singleton.mp ha]
            exact hw1
          | other =>
            dsimp only
            intro ha
            rw [List.drop_length] at ha
            exact absurd ha (List.not_mem_nil a)
          | reg =>
            dsimp only
            cases hwf : writeFile size with
            | ok n =>
              dsimp only
              intro ha
              rw [List.drop_left] at ha
              rcases List.mem_cons.mp ha with h1 | h1
              · rw [h1]
                exact hw2
              · rw [List.mem_singleton.mp h1]
                exact hw1
            | error msg =>
              dsimp only
              intro ha
              rw [List.drop_left] at ha
              rcases List.mem_cons.mp ha with h1 | h1
              · rw [h1]
                exact hw2
              · rw [List.mem_singleton.mp h1]
                exact hw1

/-- C1 witness: with destination root `/out` and filter set `{world}`, an
archive consisting of the single traversal entry `world/../../etc/passwd`
extracts exactly as the empty archive: the entry is skipped outright. -/
theorem c1_outside_root_skipped_witness :
    extractWorlds "/out".data ["world".data]
        [⟨"world/../../etc/passwd".data, .reg, 3⟩] none =
      extractWorlds "/out".data ["world".data] [] none :=
  c1_outside_root_skipped.2.1 "/out".data ["world".data] [] []
    ⟨"world/../../etc/passwd".data, .reg, 3⟩ none (by decide)

end Extractor
